import Mathlib

/-!
Verification of the flipdot display driver: a shallow embedding of the
Hanover packet codec, the column-major bit packer, the roll/scroll
animation generators, packet deduplication, the pacing scheduler and the
display-state machine, with theorems checking the specification's claims.

Grids are lists of rows; each row is a list of cell values (1 = lit).
Bytes and ASCII characters are natural numbers below 256.
-/

namespace Flipdot

/-- Panel width (`DISP_W` in the source configuration). -/
def DISP_W : Nat := 84

/-- Panel height (`DISP_H` in the source configuration). -/
def DISP_H : Nat := 7

/-- The configured sign address (`SIGN_ADDRESS`). -/
def SIGN_ADDRESS : Nat := 2

/-- Pixels advanced per scroll step (`SCROLL_STEP`). -/
def SCROLL_STEP : Nat := 1

abbrev Row := List Nat

abbrev Grid := List Row

/-- Cell lookup with the usual out-of-range default of 0. -/
def gridGet (g : Grid) (r c : Nat) : Nat := (g.getD r []).getD c 0

/-- ASCII code of the uppercase hex digit for a value below 16
(`format(v, "X")` for one digit). -/
def hexDigitAscii (v : Nat) : Nat := if v < 10 then 48 + v else 55 + v

/-- Fuel-indexed minimal-width uppercase hex rendering; any fuel of at least
the digit count of `n` (and at least one) gives the true rendering. -/
def toHexDigitsAux : Nat → Nat → List Nat
  | 0, _ => []
  | fuel + 1, n =>
    if n < 16 then [hexDigitAscii n]
    else toHexDigitsAux fuel (n / 16) ++ [hexDigitAscii (n % 16)]

/-- ASCII codes of `format(n, "X")`: uppercase hex, minimal width, at least
one digit (`n + 1` always exceeds the hex digit count of `n`). -/
def toHexDigits (n : Nat) : List Nat := toHexDigitsAux (n + 1) n

/-- ASCII codes of the two-digit uppercase hex rendering of a byte
(`format(n, "02X")` for `n < 256`, and each byte of `bytes.hex().upper()`). -/
def hexPair (n : Nat) : List Nat := [hexDigitAscii (n / 16 % 16), hexDigitAscii (n % 16)]

/-- `_build_packet(address, image_bytes)` from the source: STX, ASCII "1",
the address in hex, the payload length mod 256 as two hex digits, the
payload bytes as uppercase hex, a raw ETX byte, then the checksum
`((sum(body) & 0xFF) ^ 0xFF) + 1 & 0xFF` as two hex digits. -/
def build_packet (address : Nat) (image_bytes : List Nat) : List Nat :=
  let resolution := image_bytes.length % 256
  let hex_payload := hexPair resolution ++ image_bytes.flatMap hexPair
  let body := (0x31 :: toHexDigits address) ++ hex_payload ++ [0x03]
  let total := body.sum % 256
  let checksum := ((total ^^^ 0xFF) + 1) % 256
  0x02 :: body ++ hexPair checksum

set_option maxRecDepth 4000 in
/-- For a byte value, the bitwise complement plus one is the two's-complement
negation modulo 256. -/
theorem xor_255_succ (t : Nat) (h : t < 256) :
    ((t ^^^ 255) + 1) % 256 = (256 - t) % 256 := by
  have : ∀ u : Fin 256, ((u.val ^^^ 255) + 1) % 256 = (256 - u.val) % 256 := by decide
  exact this ⟨t, h⟩

theorem toHexDigits_small (n : Nat) (h : n < 16) :
    toHexDigits n = [hexDigitAscii n] := by
  rw [toHexDigits, toHexDigitsAux]
  simp [h]

theorem hexPair_length (n : Nat) : (hexPair n).length = 2 := rfl

theorem checksum_cancels (s : Nat) : (s + (256 - s % 256) % 256) % 256 = 0 := by
  omega

theorem flatMap_hexPair_length (payload : List Nat) :
    (payload.flatMap hexPair).length = 2 * payload.length := by
  induction payload with
  | nil => simp
  | cons b bs ih => simp [hexPair, ih]; omega

/-- C1: for every address in 0..15 and every payload, the packet is
`STX || body || checksum-hex` where the body is ASCII "1", one uppercase hex
address digit, two hex digits of the payload length mod 256, two hex digits
per payload byte and a raw 0x03; byte 0 of the packet is 0x02, the total
length is `8 + 2N`, the checksum is `(256 − (sum(body) mod 256)) mod 256`
so the body sum plus the checksum vanishes mod 256; and for address 2 and
payload `[0xFF]` the packet is `0x02 "12" "01" "FF" 0x03 "AD"`. -/
theorem build_packet_spec :
    (∀ (address : Nat), address < 16 → ∀ (payload : List Nat),
      let body := (0x31 :: [hexDigitAscii address]) ++
        hexPair (payload.length % 256) ++ payload.flatMap hexPair ++ [0x03]
      build_packet address payload =
        0x02 :: body ++ hexPair ((256 - body.sum % 256) % 256) ∧
      (build_packet address payload).length = 8 + 2 * payload.length ∧
      (build_packet address payload).headD 0 = 0x02 ∧
      (body.sum + (256 - body.sum % 256) % 256) % 256 = 0) ∧
    build_packet 2 [0xFF] = [0x02, 0x31, 0x32, 0x30, 0x31, 0x46, 0x46, 0x03, 0x41, 0x44] := by
  constructor
  · intro address haddr payload
    refine ⟨?_, ?_, ?_, ?_⟩
    · rw [build_packet, toHexDigits_small address haddr,
        xor_255_succ _ (Nat.mod_lt _ (by omega))]
      simp
    · rw [build_packet, toHexDigits_small address haddr]
      simp only [List.length_cons, List.length_append, List.length_singleton,
        List.length_nil, hexPair_length, flatMap_hexPair_length]
      omega
    · rw [build_packet]
      simp
    · exact checksum_cancels _
  · decide

/-- Witness for C1 at address 3, payload `[0x00, 0x10]`. -/
theorem build_packet_spec_witness :
    (3 : Nat) < 16 ∧
    build_packet 3 [0x00, 0x10] =
      0x02 :: ((0x31 :: [hexDigitAscii 3]) ++ hexPair (2 % 256) ++
        [0x00, 0x10].flatMap hexPair ++ [0x03]) ++
        hexPair ((256 - ((0x31 :: [hexDigitAscii 3]) ++ hexPair (2 % 256) ++
          [0x00, 0x10].flatMap hexPair ++ [0x03]).sum % 256) % 256) :=
  ⟨by decide, (build_packet_spec.1 3 (by decide) [0x00, 0x10]).1⟩

/-- The loop of `dedupe_packets`: `last` is the most recently kept element
(`deduped[-1]`), and each later packet is appended only when it differs. -/
def dedupeAux {α : Type} [DecidableEq α] (last : α) : List α → List α
  | [] => []
  | p :: ps => if p ≠ last then p :: dedupeAux p ps else dedupeAux last ps

/-- `dedupe_packets(packets)` from the source: keeps `packets[0]`, then each
packet that differs from the last kept one.  An empty input has no
`packets[0]` (the source raises), modelled as `none`. -/
def dedupe_packets {α : Type} [DecidableEq α] : List α → Option (List α)
  | [] => none
  | p :: ps => some (p :: dedupeAux p ps)

/-- Modelled from the spec's words for comparison: collapse every maximal run
of identical consecutive packets to one representative. -/
def collapseRuns {α : Type} [DecidableEq α] : List α → List α
  | [] => []
  | [x] => [x]
  | x :: y :: rest =>
    if x = y then collapseRuns (y :: rest) else x :: collapseRuns (y :: rest)

theorem dedupeAux_eq_collapseRuns {α : Type} [DecidableEq α] (rest : List α) :
    ∀ x : α, x :: dedupeAux x rest = collapseRuns (x :: rest) := by
  induction rest with
  | nil => intro x; rfl
  | cons p ps ih =>
    intro x
    rw [dedupeAux, collapseRuns]
    by_cases hxp : x = p
    · subst hxp
      simp [ih]
    · simp [hxp, Ne.symm hxp, ih]

/-- C5: dedupe collapses every maximal run of identical consecutive packets
to one representative, preserving order (it equals the run-collapsing
function written from the spec); and `[p1,p1,p2,p2,p2,p1]` dedupes to
`[p1,p2,p1]`. -/
theorem dedupe_packets_spec :
    (∀ (packets : List (List Nat)), packets ≠ [] →
      dedupe_packets packets = some (collapseRuns packets)) ∧
    dedupe_packets [[1], [1], [2], [2], [2], [1]] = some [[1], [2], [1]] := by
  constructor
  · intro packets hne
    match packets with
    | p :: ps => rw [dedupe_packets, dedupeAux_eq_collapseRuns]
  · decide

/-- Witness for C5 on the non-trivial run `[5,5,5,7]`. -/
theorem dedupe_packets_spec_witness :
    ([5, 5, 5, 7] : List Nat) ≠ [] ∧
    dedupe_packets ([5, 5, 5, 7].map (fun n => [n])) =
      some (collapseRuns ([5, 5, 5, 7].map (fun n => [n]))) :=
  ⟨by decide, dedupe_packets_spec.1 _ (by decide)⟩

theorem dedupeAux_length {α : Type} [DecidableEq α] (rest : List α) :
    ∀ x : α, (dedupeAux x rest).length ≤ rest.length := by
  induction rest with
  | nil => intro x; simp [dedupeAux]
  | cons p ps ih =>
    intro x
    rw [dedupeAux]
    by_cases hpx : p = x
    · rw [if_neg (by simp [hpx] : ¬(p ≠ x))]
      exact Nat.le_succ_of_le (ih x)
    · rw [if_pos hpx]
      exact Nat.succ_le_succ (ih p)

theorem dedupeAux_chain {α : Type} [DecidableEq α] (rest : List α) :
    ∀ x : α, List.Chain' (fun a b => a ≠ b) (x :: dedupeAux x rest) := by
  induction rest with
  | nil => intro x; simp [dedupeAux]
  | cons p ps ih =>
    intro x
    rw [dedupeAux]
    by_cases hpx : p = x
    · simp only [if_neg (by simp [hpx] : ¬(p ≠ x))]
      exact ih x
    · simp only [if_pos hpx]
      exact List.Chain'.cons (Ne.symm hpx) (ih p)

theorem dedupeAux_fixpoint {α : Type} [DecidableEq α] (rest : List α) :
    ∀ x : α, List.Chain' (fun a b => a ≠ b) (x :: rest) → dedupeAux x rest = rest := by
  induction rest with
  | nil => intro x _; rfl
  | cons p ps ih =>
    intro x hch
    rw [dedupeAux]
    have hxp : x ≠ p := (List.chain'_cons.mp hch).1
    rw [if_pos (Ne.symm hxp)]
    rw [ih p (List.chain'_cons.mp hch).2]

/-- C6: dedupe is idempotent; its output is no longer than its input, has no
two consecutive equal elements, and is non-empty (for non-empty input). -/
theorem dedupe_packets_algebra (packets : List (List Nat)) (hne : packets ≠ []) :
    ∃ r, dedupe_packets packets = some r ∧
      dedupe_packets r = some r ∧
      r.length ≤ packets.length ∧
      List.Chain' (fun a b => a ≠ b) r ∧
      r ≠ [] := by
  match packets with
  | p :: ps =>
    refine ⟨p :: dedupeAux p ps, rfl, ?_, ?_, dedupeAux_chain ps p, by simp⟩
    · rw [dedupe_packets, dedupeAux_fixpoint _ _ (dedupeAux_chain ps p)]
    · simpa using Nat.succ_le_succ (dedupeAux_length ps p)

/-- Witness for C6 on `[4,4,9,9,4]`. -/
theorem dedupe_packets_algebra_witness :
    ∃ r, dedupe_packets [[4], [4], [9], [9], [4]] = some r ∧
      dedupe_packets r = some r ∧
      r.length ≤ ([[4], [4], [9], [9], [4]] : List (List Nat)).length ∧
      List.Chain' (fun a b => a ≠ b) r ∧
      r ≠ [] :=
  dedupe_packets_algebra [[4], [4], [9], [9], [4]] (by decide)

/-- The all-unlit H×W grid (`np.zeros((H, W))`). -/
def zerosGrid (H W : Nat) : Grid := List.replicate H (List.replicate W 0)

/-- One frame of the roll: start from zeros, assign rows `[0, shift)` from
`new_frame`, then (when `rest = H − shift > 0`) rows `[shift, H)` from
`old_frame[:rest]`.  `H` and `W` stand for the configuration constants
`DISP_H`/`DISP_W` the source reads. -/
def rollFrame (H W : Nat) (old_frame new_frame : Grid) (shift : Nat) : Grid :=
  let frame := zerosGrid H W
  let frame1 := new_frame.take shift ++ frame.drop shift
  let rest := H - shift
  if 0 < rest then frame1.take shift ++ old_frame.take rest else frame1

/-- `roll_transition(old_frame, new_frame)`: the frames built for
`shift in range(1, H + 1)`. -/
def roll_transition (H W : Nat) (old_frame new_frame : Grid) : List Grid :=
  (List.range H).map (fun i => rollFrame H W old_frame new_frame (i + 1))

theorem rollFrame_eq (H W : Nat) (old_frame new_frame : Grid) (s : Nat)
    (hold : old_frame.length = H) (hnew : new_frame.length = H)
    (h1 : 1 ≤ s) (hs : s ≤ H) :
    rollFrame H W old_frame new_frame s = new_frame.take s ++ old_frame.take (H - s) := by
  rw [rollFrame]
  have htake : (new_frame.take s ++ (zerosGrid H W).drop s).take s = new_frame.take s := by
    rw [List.take_append_of_le_length (by simp [hnew]; omega), List.take_take]
    simp
  by_cases hrest : 0 < H - s
  · rw [if_pos hrest, htake]
  · rw [if_neg hrest]
    have hsH : s = H := by omega
    subst hsH
    rw [List.take_of_length_le (le_of_eq hnew), zerosGrid, List.drop_replicate]
    simp [hold]

theorem roll_getD (H W : Nat) (old_frame new_frame : Grid) (i : Nat) (hi : i < H) :
    (roll_transition H W old_frame new_frame).getD i [] =
      rollFrame H W old_frame new_frame (i + 1) := by
  rw [roll_transition, List.getD_eq_getElem?_getD, List.getElem?_map, List.getElem?_range hi]
  rfl

/-- C3: `roll_transition` yields exactly `H` frames; the frame at shift `s`
(1 ≤ s ≤ H) is rows `[0, s)` of the new grid followed by rows `[0, H−s)` of
the old grid; the terminal frame equals the new grid; and for H=3 with old
rows `[A,B,C]` and new rows `[X,Y,Z]` the sequence is
`[X,A,B], [X,Y,A], [X,Y,Z]`. -/
theorem roll_transition_spec :
    (∀ (H W : Nat) (old_frame new_frame : Grid),
      old_frame.length = H → new_frame.length = H →
      (roll_transition H W old_frame new_frame).length = H ∧
      (∀ s, 1 ≤ s → s ≤ H →
        (roll_transition H W old_frame new_frame).getD (s - 1) [] =
          new_frame.take s ++ old_frame.take (H - s)) ∧
      (0 < H → (roll_transition H W old_frame new_frame).getD (H - 1) [] = new_frame)) ∧
    roll_transition 3 1 [[10], [11], [12]] [[20], [21], [22]] =
      [[[20], [10], [11]], [[20], [21], [10]], [[20], [21], [22]]] := by
  constructor
  · intro H W old_frame new_frame hold hnew
    refine ⟨by simp [roll_transition], ?_, ?_⟩
    · intro s h1 hs
      have hi : s - 1 < H := by omega
      rw [roll_getD H W old_frame new_frame (s - 1) hi]
      have : s - 1 + 1 = s := by omega
      rw [this, rollFrame_eq H W old_frame new_frame s hold hnew h1 hs]
    · intro hH
      have hi : H - 1 < H := by omega
      rw [roll_getD H W old_frame new_frame (H - 1) hi]
      have : H - 1 + 1 = H := by omega
      rw [this, rollFrame_eq H W old_frame new_frame H hold hnew (by omega) (le_refl H)]
      simp [List.take_of_length_le (le_of_eq hnew)]
  · decide

/-- Witness for C3: a 2×1 roll evaluated concretely. -/
theorem roll_transition_spec_witness :
    (roll_transition 2 1 [[1], [2]] [[3], [4]]).length = 2 ∧
    (roll_transition 2 1 [[1], [2]] [[3], [4]]).getD 0 [] =
      ([[3], [4]] : Grid).take 1 ++ ([[1], [2]] : Grid).take 1 ∧
    (roll_transition 2 1 [[1], [2]] [[3], [4]]).getD 1 [] = [[3], [4]] := by
  obtain ⟨hlen, hmid, hterm⟩ :=
    roll_transition_spec.1 2 1 [[1], [2]] [[3], [4]] (by decide) (by decide)
  exact ⟨hlen, hmid 1 (by decide) (by decide), hterm (by decide)⟩

/-- `range(0, stop, step)` for `step ≥ 1`: the multiples of `step` below
`stop`, of which there are `⌈stop / step⌉`. -/
def rangeStep (stop step : Nat) : List Nat :=
  (List.range ((stop + step - 1) / step)).map (fun j => j * step)

/-- `scroll_text(arr)` from the source, with the configuration constants
`DISP_W`/`SCROLL_STEP` passed explicitly: pad `arr` with `W` blank columns
on each side, then emit the window `padded[:, i : i+W]` for each
`i in range(0, arr.shape[1] + W, step)`. -/
def scroll_text (W step : Nat) (arr : Grid) : List Grid :=
  let width := (arr.headD []).length
  let padded := arr.map (fun row => List.replicate W 0 ++ row ++ List.replicate W 0)
  (rangeStep (width + W) step).map (fun i => padded.map (fun row => (row.drop i).take W))

/-- C4 counterexample: for the 1×1 lit bitmap with the configured panel
width 84 and step 1, the source emits 85 frames — not `1 + 84 + 1 = 86` —
and the final frame still shows the bitmap's column at its left edge, so it
is not blank. -/
theorem scroll_text_claim_counterexample :
    (scroll_text DISP_W SCROLL_STEP [[1]]).length = 85 ∧
    ¬((scroll_text DISP_W SCROLL_STEP [[1]]).length = 1 + DISP_W + 1) ∧
    (scroll_text DISP_W SCROLL_STEP [[1]]).getD 84 [] ≠ [List.replicate DISP_W 0] := by
  refine ⟨by decide, by decide, by decide⟩

theorem rangeStep_getD (stop step j : Nat) (hj : j < (stop + step - 1) / step) :
    (rangeStep stop step).getD j 0 = j * step := by
  rw [rangeStep, List.getD_eq_getElem?_getD, List.getElem?_map, List.getElem?_range hj]
  rfl

/-- C4 (amended): the offsets run from 0 up to but excluding
`bitmap.width + W`, stepping by `step`; there are `⌈(width + W) / step⌉`
frames, the frame at position `j` is the window of the padded bitmap at
offset `j·step`, and for `step = 1` there are exactly `width + W` frames,
the last being the window at offset `width + W − 1`. -/
theorem scroll_text_spec :
    ∀ (W step : Nat) (arr : Grid), 1 ≤ step →
    let width := (arr.headD []).length
    let padded := arr.map (fun row => List.replicate W 0 ++ row ++ List.replicate W 0)
    (scroll_text W step arr).length = (width + W + step - 1) / step ∧
    (∀ j, j < (width + W + step - 1) / step →
      (scroll_text W step arr).getD j [] =
        padded.map (fun row => (row.drop (j * step)).take W)) ∧
    (step = 1 → (scroll_text W step arr).length = width + W ∧
      (0 < width + W → (scroll_text W step arr).getD (width + W - 1) [] =
        padded.map (fun row => (row.drop (width + W - 1)).take W))) := by
  intro W step arr hstep width padded
  have hlen : (scroll_text W step arr).length = (width + W + step - 1) / step := by
    simp only [scroll_text, rangeStep, List.length_map, List.length_range]
  have hwin : ∀ j, j < (width + W + step - 1) / step →
      (scroll_text W step arr).getD j [] =
        padded.map (fun row => (row.drop (j * step)).take W) := by
    intro j hj
    rw [scroll_text, List.getD_eq_getElem?_getD, List.getElem?_map]
    rw [rangeStep, List.getElem?_map, List.getElem?_range hj]
    rfl
  refine ⟨hlen, hwin, ?_⟩
  intro h1
  subst h1
  refine ⟨by simpa using hlen, ?_⟩
  intro hpos
  have := hwin (width + W - 1) (by omega)
  simpa using this

/-- Witness for C4's amended statement at W=2, step=1, bitmap `[[1]]`. -/
theorem scroll_text_spec_witness :
    (scroll_text 2 1 [[1]]).length = (1 + 2 + 1 - 1) / 1 ∧
    (scroll_text 2 1 [[1]]).getD 0 [] =
      ([[1]] : Grid).map (fun row =>
        ((List.replicate 2 0 ++ row ++ List.replicate 2 0).drop (0 * 1)).take 2) := by
  obtain ⟨hlen, hwin, _⟩ := scroll_text_spec 2 1 [[1]] (by decide)
  exact ⟨hlen, hwin 0 (by decide)⟩

/-- The pause `_send_packets` inserts after one write: the source computes
`remaining = FRAME_INTERVAL - (monotonic() - t0)` and sleeps only when
`remaining > 0`.  `elapsed` is the duration of the write plus flush. -/
def sleepAfterWrite (interval elapsed : ℚ) : ℚ :=
  if 0 < interval - elapsed then interval - elapsed else 0

/-- Discrete-event model of `_send_packets` on an idealized monotonic clock:
given each packet's write+flush duration, the start times of the writes.
`t0` is captured immediately before each write; after the write the clock
has advanced by the duration, and the loop then sleeps `sleepAfterWrite`. -/
def write_starts (interval : ℚ) : List ℚ → ℚ → List ℚ
  | [], _ => []
  | d :: ds, t => t :: write_starts interval ds (t + d + sleepAfterWrite interval d)

/-- C7: the scheduler sleeps exactly `max(0, frame_interval − elapsed)` — in
particular it never sleeps when the remaining time is zero or negative —
and consecutive write starts are always at least `frame_interval` apart. -/
theorem send_packets_pacing :
    (∀ interval elapsed : ℚ,
      sleepAfterWrite interval elapsed = max 0 (interval - elapsed) ∧
      (interval - elapsed ≤ 0 → sleepAfterWrite interval elapsed = 0)) ∧
    (∀ (interval : ℚ) (durations : List ℚ) (t0 : ℚ),
      List.Chain' (fun a b => a + interval ≤ b) (write_starts interval durations t0)) := by
  constructor
  · intro interval elapsed
    constructor
    · rw [sleepAfterWrite]
      rcases le_or_lt (interval - elapsed) 0 with h | h
      · rw [if_neg (by linarith), max_eq_left h]
      · rw [if_pos h, max_eq_right (le_of_lt h)]
    · intro h
      rw [sleepAfterWrite, if_neg (by linarith)]
  · intro interval durations
    induction durations with
    | nil => intro t0; simp [write_starts]
    | cons d ds ih =>
      intro t0
      rw [write_starts]
      apply List.chain'_cons'.mpr
      refine ⟨?_, ih _⟩
      intro y hy
      cases ds with
      | nil => simp [write_starts] at hy
      | cons e es =>
        rw [write_starts] at hy
        simp only [List.head?_cons, Option.mem_def, Option.some.injEq] at hy
        subst hy
        rw [sleepAfterWrite]
        by_cases hrem : 0 < interval - d
        · rw [if_pos hrem]; linarith
        · rw [if_neg hrem]; push_neg at hrem; linarith

/-- Witness for C7: a write slower than the interval gets no sleep, and the
pacing chain holds on a concrete two-packet send. -/
theorem send_packets_pacing_witness :
    ((2 : ℚ) - 5 ≤ 0 ∧ sleepAfterWrite 2 5 = 0) ∧
    List.Chain' (fun a b => a + (2 : ℚ) ≤ b) (write_starts 2 [1, 5] 0) :=
  ⟨⟨by norm_num, (send_packets_pacing.1 2 5).2 (by norm_num)⟩,
    send_packets_pacing.2 2 [1, 5] 0⟩

/-- `text_to_frame`'s frame construction for text that fits: right-pad every
row to the panel width (`np.pad(arr, ((0,0),(0, DISP_W - arr.shape[1])))`);
text wider than the panel yields `None`.  `W` stands for `DISP_W`. -/
def text_to_frame (W : Nat) (arr : Grid) : Option Grid :=
  let width := (arr.headD []).length
  if width ≤ W then some (arr.map (fun row => row ++ List.replicate (W - width) 0))
  else none

/-- `current_frame[:] = 0` / `np.zeros_like(current_frame)`: a zero grid of
the same shape. -/
def fillZero (g : Grid) : Grid := g.map (fun row => row.map (fun _ => 0))

/-- The `display(text, animate)` state machine at the frame level, with the
rasterized bitmap `arr` in place of the text: returns the list of frames
sent (in order) and the new `current_frame`. -/
def display (H W step : Nat) (current arr : Grid) (animate : Bool) : List Grid × Grid :=
  match text_to_frame W arr with
  | some new_frame =>
    ((if animate then roll_transition H W current new_frame else [new_frame]), new_frame)
  | none =>
    ((if animate then roll_transition H W current (fillZero current) else []) ++
      scroll_text W step arr,
     fillZero current)

theorem map_zero_replicate (l : List Nat) :
    l.map (fun _ => 0) = List.replicate l.length 0 := by
  induction l with
  | nil => rfl
  | cons x xs ih => simp [List.replicate_succ, ih]

theorem fillZero_eq_zeros (current : Grid) (H W : Nat)
    (hlen : current.length = H) (hrow : ∀ row ∈ current, row.length = W) :
    fillZero current = zerosGrid H W := by
  subst hlen
  induction current with
  | nil => rfl
  | cons r rs ih =>
    rw [fillZero, List.map_cons, map_zero_replicate, hrow r (by simp)]
    have ihh := ih (fun row hm => hrow row (List.mem_cons_of_mem r hm))
    rw [fillZero] at ihh
    rw [ihh, zerosGrid, zerosGrid, List.length_cons, List.replicate_succ]

/-- C8: when the candidate bitmap is wider than the panel, the new tracked
state is the all-unlit grid (not the last visible window); with
animate=false only the scroll sequence is sent, and with animate=true the
roll from the current state to all-unlit is sent first, then the scroll
sequence. -/
theorem display_overflow_spec (H W step : Nat) (current arr : Grid) (animate : Bool)
    (hlen : current.length = H) (hrow : ∀ row ∈ current, row.length = W)
    (hwide : W < (arr.headD []).length) :
    display H W step current arr animate =
      ((if animate then roll_transition H W current (zerosGrid H W) else []) ++
        scroll_text W step arr,
       zerosGrid H W) := by
  rw [display, text_to_frame]
  simp only [if_neg (by omega : ¬((arr.headD []).length ≤ W))]
  rw [fillZero_eq_zeros current H W hlen hrow]

/-- Witness for C8: a 1×1 panel showing a lit cell, hit with a 2-wide
bitmap, ends all-unlit with roll-then-scroll sent. -/
theorem display_overflow_spec_witness :
    display 1 1 1 [[1]] [[1, 1]] true =
      ((if true then roll_transition 1 1 [[1]] (zerosGrid 1 1) else []) ++
        scroll_text 1 1 [[1, 1]],
       zerosGrid 1 1) :=
  display_overflow_spec 1 1 1 [[1]] [[1, 1]] true (by decide)
    (by intro row hm; simp at hm; simp [hm]) (by decide)

theorem getD_replicate_zero (n i : Nat) : (List.replicate n (0 : Nat)).getD i 0 = 0 := by
  induction n generalizing i with
  | zero => simp
  | succ m ih =>
    cases i with
    | zero => simp [List.replicate]
    | succ j => simpa [List.replicate] using ih j

theorem getD_map_row (f : Row → Row) (l : Grid) (r : Nat) (hr : r < l.length) :
    (l.map f).getD r [] = f (l.getD r []) := by
  induction l generalizing r with
  | nil => simp at hr
  | cons x xs ih =>
    cases r with
    | zero => rfl
    | succ j =>
      have := ih j (by simpa using hr)
      simpa using this

/-- C10: for a direct-fit request (bitmap width ≤ panel width) the frame
sent and stored is the bitmap left-aligned: the padded frame agrees with
the bitmap on columns below its width and is unlit on all columns from the
bitmap's width on; with animate=false exactly that one frame is sent, and
it becomes the new tracked state. -/
theorem display_direct_fit_spec (H W step w : Nat) (current arr : Grid)
    (hw : (arr.headD []).length = w) (hrows : ∀ row ∈ arr, row.length = w)
    (hfit : w ≤ W) :
    ∃ new_frame, text_to_frame W arr = some new_frame ∧
      display H W step current arr false = ([new_frame], new_frame) ∧
      new_frame.length = arr.length ∧
      (∀ r c, c < w → gridGet new_frame r c = gridGet arr r c) ∧
      (∀ r c, w ≤ c → gridGet new_frame r c = 0) := by
  have htf : text_to_frame W arr =
      some (arr.map (fun row => row ++ List.replicate (W - w) 0)) := by
    rw [text_to_frame, hw]
    simp [hfit]
  refine ⟨arr.map (fun row => row ++ List.replicate (W - w) 0), htf, ?_, by simp, ?_, ?_⟩
  · rw [display, htf]
    simp
  · intro r c hc
    rw [gridGet, gridGet]
    by_cases hr : r < arr.length
    · rw [getD_map_row _ _ _ hr]
      have hrl : (arr.getD r []).length = w := by
        rw [List.getD_eq_getElem _ _ hr]
        exact hrows _ (List.getElem_mem hr)
      rw [List.getD_append _ _ _ _ (by omega)]
    · have h1 : (arr.map (fun row => row ++ List.replicate (W - w) 0)).getD r [] = [] :=
        List.getD_eq_default _ _ (by simpa using Nat.le_of_not_lt hr)
      have h2 : arr.getD r [] = [] := List.getD_eq_default _ _ (Nat.le_of_not_lt hr)
      rw [h1, h2]
  · intro r c hc
    rw [gridGet]
    by_cases hr : r < arr.length
    · rw [getD_map_row _ _ _ hr]
      have hrl : (arr.getD r []).length = w := by
        rw [List.getD_eq_getElem _ _ hr]
        exact hrows _ (List.getElem_mem hr)
      rw [List.getD_append_right _ _ _ _ (by omega), getD_replicate_zero]
    · have h1 : (arr.map (fun row => row ++ List.replicate (W - w) 0)).getD r [] = [] :=
        List.getD_eq_default _ _ (by simpa using Nat.le_of_not_lt hr)
      rw [h1]
      rfl

/-- Witness for C10 on a 1×1 bitmap in a width-2 panel. -/
theorem display_direct_fit_spec_witness :
    ∃ new_frame, text_to_frame 2 [[1]] = some new_frame ∧
      display 1 2 1 [[0, 0]] [[1]] false = ([new_frame], new_frame) ∧
      new_frame.length = ([[1]] : Grid).length ∧
      (∀ r c, c < 1 → gridGet new_frame r c = gridGet [[1]] r c) ∧
      (∀ r c, 1 ≤ c → gridGet new_frame r c = 0) :=
  display_direct_fit_spec 1 2 1 1 [[0, 0]] [[1]] (by decide)
    (by intro row hm; simp at hm; simp [hm]) (by decide)

/-- `(rows + 7) & ~7` from the source: the row count rounded up to a
multiple of 8 (clearing the low three bits of `rows + 7`). -/
def dataRowsOf (rows : Nat) : Nat := (rows + 7) - (rows + 7) % 8

/-- `np.packbits` treats any nonzero cell as a set bit. -/
def bitOf (v : Nat) : Nat := if v ≠ 0 then 1 else 0

/-- One byte of `np.packbits(·, axis=0)` with big bit order: rows
`8j..8j+7` of column `c`, the first of them landing in the most
significant bit. -/
def packByte (g : Grid) (j c : Nat) : Nat :=
  ((List.range 8).map (fun b => bitOf (gridGet g (8 * j + b) c) * 2 ^ (7 - b))).sum

/-- `_image_to_bytes(image)` from the source: pad the row count up to a
multiple of 8 with unlit rows, reverse the rows, pack bits along axis 0,
reverse the byte groups back and flatten in column-major (Fortran) order. -/
def image_to_bytes (image : Grid) : List Nat :=
  let rows := image.length
  let cols := (image.headD []).length
  let data_rows := dataRowsOf rows
  let padded :=
    if data_rows ≠ rows then image ++ List.replicate (data_rows - rows) (List.replicate cols 0)
    else image
  let G := data_rows / 8
  (List.range cols).flatMap (fun c =>
    (List.range G).map (fun g => packByte padded.reverse (G - 1 - g) c))

/-- The bottom-padded grid: the image followed by blank rows up to the next
multiple of 8. -/
def paddedGrid (image : Grid) (cols : Nat) : Grid :=
  image ++ List.replicate (dataRowsOf image.length - image.length) (List.replicate cols 0)

/-- Modelled from the spec for comparison: the byte for column `c`, group
`g` has bit `k` (least significant first) set iff row `8g + k` of column
`c` is lit and that row index is below the height. -/
def specColumnByte (image : Grid) (H g c : Nat) : Nat :=
  ((List.range 8).map (fun k =>
    (if 8 * g + k < H then gridGet image (8 * g + k) c else 0) * 2 ^ k)).sum

theorem padded_branch (image : Grid) (cols : Nat) :
    (if dataRowsOf image.length ≠ image.length
     then image ++
       List.replicate (dataRowsOf image.length - image.length) (List.replicate cols 0)
     else image) = paddedGrid image cols := by
  by_cases h : dataRowsOf image.length = image.length
  · simp [paddedGrid, h]
  · simp [paddedGrid, h]

theorem image_to_bytes_eq (image : Grid) :
    image_to_bytes image =
      (List.range (image.headD []).length).flatMap (fun c =>
        (List.range (dataRowsOf image.length / 8)).map (fun g =>
          packByte (paddedGrid image (image.headD []).length).reverse
            (dataRowsOf image.length / 8 - 1 - g) c)) := by
  rw [image_to_bytes]
  simp only [padded_branch]

theorem gridGet_le_one (image : Grid)
    (hbin : ∀ row ∈ image, ∀ v ∈ row, v ≤ 1) (r c : Nat) : gridGet image r c ≤ 1 := by
  rw [gridGet]
  by_cases hr : r < image.length
  · rw [List.getD_eq_getElem _ _ hr]
    by_cases hc : c < (image[r]).length
    · rw [List.getD_eq_getElem _ _ hc]
      exact hbin _ (List.getElem_mem hr) _ (List.getElem_mem hc)
    · rw [List.getD_eq_default _ _ (Nat.le_of_not_lt hc)]
      omega
  · rw [List.getD_eq_default _ _ (Nat.le_of_not_lt hr)]
    simp

theorem bitOf_eq_self (v : Nat) (h : v ≤ 1) : bitOf v = v := by
  cases v with
  | zero => rfl
  | succ n =>
    cases n with
    | zero => rfl
    | succ m => omega

theorem gridGet_zrows (n W i c : Nat) :
    gridGet (List.replicate n (List.replicate W 0)) i c = 0 := by
  rw [gridGet]
  by_cases h : i < n
  · have h1 : (List.replicate n (List.replicate W 0)).getD i [] = List.replicate W 0 := by
      rw [List.getD_eq_getElem (List.replicate n (List.replicate W 0)) []
        (by simpa using h), List.getElem_replicate]
    rw [h1, getD_replicate_zero]
  · have h1 : (List.replicate n (List.replicate W 0)).getD i [] = [] :=
      List.getD_eq_default _ _ (by simpa using Nat.le_of_not_lt h)
    rw [h1]
    rfl

theorem gridGet_paddedGrid (image : Grid) (H W r c : Nat) (hlen : image.length = H) :
    gridGet (paddedGrid image W) r c = if r < H then gridGet image r c else 0 := by
  rw [paddedGrid]
  by_cases hr : r < H
  · rw [if_pos hr, gridGet, gridGet, List.getD_append _ _ _ _ (by omega)]
  · rw [if_neg hr, gridGet, List.getD_append_right _ _ _ _ (by omega), hlen]
    exact gridGet_zrows _ W (r - H) c

theorem getD_row_reverse (l : Grid) (i : Nat) (hi : i < l.length) :
    l.reverse.getD i [] = l.getD (l.length - 1 - i) [] := by
  rw [List.getD_eq_getElem _ _ (by simpa using hi),
    List.getD_eq_getElem _ _ (by omega), List.getElem_reverse]

theorem gridGet_rev (p : Grid) (i c : Nat) (hi : i < p.length) :
    gridGet p.reverse i c = gridGet p (p.length - 1 - i) c := by
  rw [gridGet, gridGet, getD_row_reverse p i hi]

theorem list_range_sum_eq (n : Nat) (f : Nat → Nat) :
    ((List.range n).map f).sum = ∑ i ∈ Finset.range n, f i := by
  induction n with
  | zero => simp
  | succ m ih =>
    rw [List.range_succ, List.map_append, List.sum_append, Finset.sum_range_succ, ih]
    simp

theorem packByte_spec (image : Grid) (H W : Nat) (hH : 0 < H) (hlen : image.length = H)
    (hbin : ∀ row ∈ image, ∀ v ∈ row, v ≤ 1) (g c : Nat) (hg : g < (H + 7) / 8) :
    packByte (paddedGrid image W).reverse ((H + 7) / 8 - 1 - g) c =
      specColumnByte image H g c := by
  set G := (H + 7) / 8 with hGdef
  have hplen : (paddedGrid image W).length = 8 * G := by
    simp only [paddedGrid, List.length_append, List.length_replicate, hlen, dataRowsOf]
    omega
  rw [packByte, specColumnByte, list_range_sum_eq, list_range_sum_eq,
    ← Finset.sum_range_reflect
      (fun k => (if 8 * g + k < H then gridGet image (8 * g + k) c else 0) * 2 ^ k) 8]
  apply Finset.sum_congr rfl
  intro b hb
  have hb8 : b < 8 := Finset.mem_range.mp hb
  have hi : 8 * (G - 1 - g) + b < (paddedGrid image W).length := by rw [hplen]; omega
  rw [gridGet_rev _ _ c hi, hplen]
  have hidx : 8 * G - 1 - (8 * (G - 1 - g) + b) = 8 * g + (7 - b) := by omega
  rw [hidx, gridGet_paddedGrid image H W _ c hlen]
  have hle : (if 8 * g + (7 - b) < H then gridGet image (8 * g + (7 - b)) c else 0) ≤ 1 := by
    split
    · exact gridGet_le_one image hbin _ _
    · omega
  rw [bitOf_eq_self _ hle]

theorem flatMap_const_length (f : Nat → List Nat) (G : Nat) (hf : ∀ x, (f x).length = G)
    (cols : List Nat) : (cols.flatMap f).length = cols.length * G := by
  induction cols with
  | nil => simp
  | cons y ys ih =>
    rw [List.flatMap_cons, List.length_append, ih, hf y, List.length_cons]
    ring

theorem flatMap_getD (f : Nat → List Nat) (G : Nat) (hf : ∀ x, (f x).length = G) :
    ∀ (cols : List Nat) (c g : Nat), c < cols.length → g < G →
      (cols.flatMap f).getD (c * G + g) 0 = (f (cols.getD c 0)).getD g 0 := by
  intro cols
  induction cols with
  | nil => intro c g hc _; simp at hc
  | cons y ys ih =>
    intro c g hc hg
    rw [List.flatMap_cons]
    cases c with
    | zero =>
      rw [Nat.zero_mul, Nat.zero_add, List.getD_append _ _ _ _ (by rw [hf y]; exact hg)]
      rfl
    | succ d =>
      have hsplit : (d + 1) * G + g = G + (d * G + g) := by ring
      rw [hsplit, List.getD_append_right _ _ _ _ (by rw [hf y]; exact Nat.le_add_right G _)]
      have harith : G + (d * G + g) - (f y).length = d * G + g := by rw [hf y]; omega
      rw [harith, List.getD_cons_succ]
      exact ih d g (by simpa using hc) hg

theorem range_getD (n i : Nat) (h : i < n) : (List.range n).getD i 0 = i := by
  rw [List.getD_eq_getElem _ _ (by simpa using h), List.getElem_range]

theorem map_range_getD (f : Nat → Nat) (G g : Nat) (hg : g < G) :
    ((List.range G).map f).getD g 0 = f g := by
  rw [List.getD_eq_getElem _ _ (by simpa using hg), List.getElem_map, List.getElem_range]

/-- C2: for an H×W binary grid the packer emits `W · ⌈H/8⌉` bytes in
column-major order with group index ascending inside a column, and the byte
at position `c·G + g` has bit `k` set iff row `8g + k` of column `c` is lit
and `8g + k < H` (rows beyond the height contribute 0). -/
theorem image_to_bytes_spec (H W : Nat) (image : Grid) (hH : 0 < H)
    (hlen : image.length = H) (hrows : ∀ row ∈ image, row.length = W)
    (hbin : ∀ row ∈ image, ∀ v ∈ row, v ≤ 1) :
    (image_to_bytes image).length = W * ((H + 7) / 8) ∧
    (∀ c g, c < W → g < (H + 7) / 8 →
      (image_to_bytes image).getD (c * ((H + 7) / 8) + g) 0 =
        specColumnByte image H g c) := by
  have hcols : (image.headD []).length = W := by
    cases image with
    | nil => simp at hlen; omega
    | cons r rs => exact hrows r (by simp)
  have hG : dataRowsOf image.length / 8 = (H + 7) / 8 := by
    rw [hlen, dataRowsOf]
    omega
  constructor
  · rw [image_to_bytes_eq image]
    simp only [hcols, hG]
    rw [flatMap_const_length _ ((H + 7) / 8) (fun x => by simp) (List.range W),
      List.length_range]
  · intro c g hc hg
    rw [image_to_bytes_eq image]
    simp only [hcols, hG]
    rw [flatMap_getD
      (fun c' => (List.range ((H + 7) / 8)).map (fun g' =>
        packByte (paddedGrid image W).reverse ((H + 7) / 8 - 1 - g') c'))
      ((H + 7) / 8) (fun x => by simp) (List.range W) c g (by simpa using hc) hg]
    rw [range_getD W c hc]
    rw [map_range_getD
      (fun g' => packByte (paddedGrid image W).reverse ((H + 7) / 8 - 1 - g') c)
      ((H + 7) / 8) g hg]
    exact packByte_spec image H W hH hlen hbin g c hg

/-- Witness for C2 on the 1×2 grid `[[1, 0]]`. -/
theorem image_to_bytes_spec_witness :
    (image_to_bytes [[1, 0]]).length = 2 * ((1 + 7) / 8) ∧
    (image_to_bytes [[1, 0]]).getD (0 * ((1 + 7) / 8) + 0) 0 =
      specColumnByte [[1, 0]] 1 0 0 := by
  obtain ⟨hlen, hbyte⟩ := image_to_bytes_spec 1 2 [[1, 0]] (by decide) (by decide)
    (by intro row hm; simp at hm; simp [hm])
    (by intro row hm v hv; simp at hm; subst hm; simp at hv; omega)
  exact ⟨hlen, hbyte 0 0 (by decide) (by decide)⟩

theorem build_packet_length (a : Nat) (p : List Nat) :
    (build_packet a p).length = 7 + (toHexDigits a).length + 2 * p.length := by
  rw [build_packet]
  simp only [List.length_cons, List.length_append, List.length_singleton,
    List.length_nil, hexPair_length, flatMap_hexPair_length]
  omega

theorem toHexDigitsAux_small (fuel n : Nat) (hf : 1 ≤ fuel) (hn : n < 16) :
    toHexDigitsAux fuel n = [hexDigitAscii n] := by
  cases fuel with
  | zero => omega
  | succ f => simp [toHexDigitsAux, hn]

theorem toHexDigits_two (a : Nat) (h16 : 16 ≤ a) (h256 : a < 256) :
    toHexDigits a = [hexDigitAscii (a / 16), hexDigitAscii (a % 16)] := by
  rw [toHexDigits, toHexDigitsAux, if_neg (by omega),
    toHexDigitsAux_small a (a / 16) (by omega) (by omega)]
  rfl

/-- C9 counterexample: the source has no configuration validation — for the
out-of-range address 255 the packet builder still produces a (malformed,
two-address-digit) packet rather than failing: `0x02 "1FF" "00" 0x03 "E0"`. -/
theorem build_packet_no_validation_counterexample :
    build_packet 255 [] = [0x02, 0x31, 0x46, 0x46, 0x30, 0x30, 0x03, 0x45, 0x30] := by
  decide

/-- C9 (amended): no `ConfigurationError` exists and out-of-range addresses
are neither rejected nor clamped: for any address in 16..255 the builder
emits a packet of length `9 + 2N` (one hex digit too long), which in
particular differs from the packet for the clamped address `a mod 16`. -/
theorem build_packet_out_of_range (a : Nat) (h16 : 16 ≤ a) (h256 : a < 256)
    (p : List Nat) :
    (build_packet a p).length = 9 + 2 * p.length ∧
    build_packet a p ≠ build_packet (a % 16) p := by
  have hlen : (build_packet a p).length = 9 + 2 * p.length := by
    rw [build_packet_length, toHexDigits_two a h16 h256]
    rfl
  refine ⟨hlen, ?_⟩
  intro heq
  have hlen2 : (build_packet (a % 16) p).length = 8 + 2 * p.length := by
    rw [build_packet_length, toHexDigits_small (a % 16) (by omega)]
    rfl
  have := congrArg List.length heq
  omega

/-- Witness for C9's amended statement at address 255 with a 1-byte payload. -/
theorem build_packet_out_of_range_witness :
    (build_packet 255 [0xFF]).length = 9 + 2 * 1 ∧
    build_packet 255 [0xFF] ≠ build_packet (255 % 16) [0xFF] :=
  build_packet_out_of_range 255 (by decide) (by decide) [0xFF]

end Flipdot
